import Mathlib

set_option autoImplicit false

/-!
Shallow embedding of the change-detection and delivery pipeline of
`scraper.js` (the canonical iteration, the one with multi-generation
hashing, state seeding and summary chunking).

Modelling conventions:
* JavaScript strings are modelled as Lean `String` / `List Char`.  JS
  string indexing counts UTF-16 code units while Lean counts Unicode
  scalar values; the two agree on all characters appearing in the
  program's literals (all BMP), so `slice`/`length` are modelled with
  `List.take`/`List.length`.
* JS numbers holding epoch-millisecond timestamps are modelled as `Int`.
* A JSON value stored in the `sent` map is modelled by `JVal`;
  JS truthiness is `truthyV`.
* The digest `crypto.createHash("sha256").update(s).digest("hex").slice(0, 16)`
  is a library function external to the repository; the development is
  parameterised over it as `sha : String → String`.  Claims that rely on
  the digest not colliding take injectivity of `sha` as a hypothesis
  (the spec treats collisions as "not a practical concern").
* Network delivery is modelled by a trace of `Act`s; the per-message
  HTTP outcome is an oracle `orc : Nat → Bool` (`res.ok` of the n-th
  POST of the run), which the code only logs.
-/

/-- The page URL constant `PAGE_URL` of the source. -/
def PAGE_URL : String := "https://appointmenttrader.com/concierge"

/-- The `STATE_VERSION` constant of the source. -/
def STATE_VERSION : String := "v1"

/-- The `STATE_TTL_DAYS` constant of the source. -/
def STATE_TTL_DAYS : Int := 14

/-- A JSON value as stored in the persisted `sent` map.  `undef` models
the JavaScript `undefined` value (a key that was assigned `undefined`). -/
inductive JVal where
  | num (t : Int)
  | str (s : String)
  | boolean (b : Bool)
  | null
  | undef
deriving DecidableEq, Repr

/-- JavaScript truthiness of `state.sent[id]`: an absent key reads as
`undefined` (falsy); `0`, `""`, `false`, `null`, `undefined` are falsy. -/
def truthyV : Option JVal → Bool
  | none => false
  | some (JVal.num t) => t != 0
  | some (JVal.str s) => s != ""
  | some (JVal.boolean b) => b
  | some JVal.null => false
  | some JVal.undef => false

/-- The `sent` map of the persisted state: fingerprint → stored value.
A JS object iterated in insertion order with unique keys; modelled as an
association list whose update (`setKey`) keeps keys unique. -/
abbrev Ledger := List (String × JVal)

/-- Reading `sent[k]`. -/
def lookupKey : Ledger → String → Option JVal
  | [], _ => none
  | (k, v) :: rest, key => if k = key then some v else lookupKey rest key

/-- The JS assignment `sent[k] = v`: replaces the value in place if the
key exists, otherwise appends the new key. -/
def setKey : Ledger → String → JVal → Ledger
  | [], k, v => [(k, v)]
  | (k', v') :: rest, k, v =>
    if k' = k then (k, v) :: rest else (k', v') :: setKey rest k v

/-- One extracted record (`it` in the source).  Absent fields are the
empty string, matching the JS idiom `it.field || ""`. -/
structure Item where
  title : String
  meta : String
  user : String
  price : String
  desc : String
  whenF : String
  link : String
deriving DecidableEq, Repr

/-- The persisted pipeline state (`state` in the source). -/
structure St where
  version : String
  initialized : Bool
  initializedAt : Option String
  sent : Ledger
deriving DecidableEq, Repr

/-- The character class of the JS regex `\s` (and of `String.prototype.trim`):
whitespace and line terminators. -/
def isJsSpace (c : Char) : Bool :=
  c = ' ' || c = '\t' || c = '\n' || c = '\x0b' || c = '\x0c' || c = '\r' ||
  c = '\u00a0' || c = '\u1680' || (0x2000 ≤ c.toNat && c.toNat ≤ 0x200a) ||
  c = '\u2028' || c = '\u2029' || c = '\u202f' || c = '\u205f' ||
  c = '\u3000' || c = '\ufeff'

/-- One pass of `s.replace(/\s+/g, " ")`: every maximal whitespace run
becomes a single space.  The flag records whether the previous character
was part of a whitespace run. -/
def collapseWs : Bool → List Char → List Char
  | _, [] => []
  | prevSpace, c :: rest =>
    if isJsSpace c then
      if prevSpace then collapseWs true rest else ' ' :: collapseWs true rest
    else c :: collapseWs false rest

/-- `trimEnd` on the underlying character list. -/
def trimEndL (l : List Char) : List Char :=
  (l.reverse.dropWhile isJsSpace).reverse

/-- JS `String.prototype.trim` on the underlying character list. -/
def jsTrimL (l : List Char) : List Char :=
  trimEndL (l.dropWhile isJsSpace)

/-- The source's normaliser `norm = s => (s || "").replace(/\s+/g, " ").trim()`. -/
def norm (s : String) : String :=
  String.mk (jsTrimL (collapseWs false s.data))

/-- JS `s.slice(0, n)` on a string (used with `n = 200` and `n = 140`). -/
def sliceTo (n : Nat) (s : String) : String :=
  String.mk (s.data.take n)

/-- Hex digit used by `JSON.stringify`'s `\uXXXX` escapes (lower case). -/
def hexDigit (n : Nat) : Char :=
  if n = 0 then '0' else if n = 1 then '1' else if n = 2 then '2'
  else if n = 3 then '3' else if n = 4 then '4' else if n = 5 then '5'
  else if n = 6 then '6' else if n = 7 then '7' else if n = 8 then '8'
  else if n = 9 then '9' else if n = 10 then 'a' else if n = 11 then 'b'
  else if n = 12 then 'c' else if n = 13 then 'd' else if n = 14 then 'e'
  else 'f'

/-- Numeric value of a hex digit character (partial inverse of `hexDigit`). -/
def hexVal (c : Char) : Nat :=
  if c = '0' then 0 else if c = '1' then 1 else if c = '2' then 2
  else if c = '3' then 3 else if c = '4' then 4 else if c = '5' then 5
  else if c = '6' then 6 else if c = '7' then 7 else if c = '8' then 8
  else if c = '9' then 9 else if c = 'a' then 10 else if c = 'b' then 11
  else if c = 'c' then 12 else if c = 'd' then 13 else if c = 'e' then 14
  else 15

/-- How `JSON.stringify` escapes one character inside a string literal. -/
def escChar (c : Char) : List Char :=
  if c = '"' then ['\\', '"']
  else if c = '\\' then ['\\', '\\']
  else if c = '\x08' then ['\\', 'b']
  else if c = '\x09' then ['\\', 't']
  else if c = '\x0a' then ['\\', 'n']
  else if c = '\x0c' then ['\\', 'f']
  else if c = '\x0d' then ['\\', 'r']
  else if c.toNat < 32 then
    ['\\', 'u', '0', '0', hexDigit (c.toNat / 16), hexDigit (c.toNat % 16)]
  else [c]

/-- `JSON.stringify` escaping of a whole string body. -/
def escStr (l : List Char) : List Char :=
  (l.map escChar).flatten

/-- The encoded body of one JSON string value followed by its closing
quote and the remainder of the serialization. -/
def strEnc (v : List Char) (rest : List Char) : List Char :=
  escStr v ++ '"' :: rest

/-- Canonical five-field tuple used by one hash generation. -/
abbrev Canon5 := String × String × String × String × String

/-- `JSON.stringify` of a five-string-field object with the given
single-character keys, in insertion order (Node serialises string keys
in insertion order).  Braces are the characters `\x7b` and `\x7d`. -/
def canonOf (k1 k2 k3 k4 k5 : Char) (v : Canon5) : List Char :=
  '\x7b' :: '"' :: k1 :: '"' :: ':' :: '"' ::
    strEnc v.1.data (',' :: '"' :: k2 :: '"' :: ':' :: '"' ::
      strEnc v.2.1.data (',' :: '"' :: k3 :: '"' :: ':' :: '"' ::
        strEnc v.2.2.1.data (',' :: '"' :: k4 :: '"' :: ':' :: '"' ::
          strEnc v.2.2.2.1.data (',' :: '"' :: k5 :: '"' :: ':' :: '"' ::
            strEnc v.2.2.2.2.data ['\x7d']))))

/-- The normalised field tuple serialised by generation v3
(`{p, u, d, w, l}` with the description capped at 200 characters). -/
def usedV3 (it : Item) : Canon5 :=
  (norm it.price, norm it.user, sliceTo 200 (norm it.desc), norm it.whenF,
    norm it.link)

/-- The normalised field tuple serialised by generation v2
(`{t, d, w, p, l}`). -/
def usedV2 (it : Item) : Canon5 :=
  (norm it.title, sliceTo 200 (norm it.desc), norm it.whenF, norm it.price,
    norm it.link)

/-- The normalised field tuple serialised by generation v1
(`{t, m, w, p, l}`). -/
def usedV1 (it : Item) : Canon5 :=
  (norm it.title, norm it.meta, norm it.whenF, norm it.price, norm it.link)

/-- The `JSON.stringify(canon)` argument of `hashV3`. -/
def canonV3 (it : Item) : String := String.mk (canonOf 'p' 'u' 'd' 'w' 'l' (usedV3 it))

/-- The `JSON.stringify(canon)` argument of `hashV2`. -/
def canonV2 (it : Item) : String := String.mk (canonOf 't' 'd' 'w' 'p' 'l' (usedV2 it))

/-- The `JSON.stringify(canon)` argument of `hashV1`. -/
def canonV1 (it : Item) : String := String.mk (canonOf 't' 'm' 'w' 'p' 'l' (usedV1 it))

/-- Generation-v3 (primary) fingerprint, parameterised by the digest. -/
def hashV3 (sha : String → String) (it : Item) : String := sha (canonV3 it)

/-- Generation-v2 (legacy) fingerprint. -/
def hashV2 (sha : String → String) (it : Item) : String := sha (canonV2 it)

/-- Generation-v1 (oldest legacy) fingerprint. -/
def hashV1 (sha : String → String) (it : Item) : String := sha (canonV1 it)

/-- `candidateIds(it)`: primary id first, legacy ids after. -/
def candidateIds (sha : String → String) (it : Item) : List String :=
  [hashV3 sha it, hashV2 sha it, hashV1 sha it]

/-- `markAllHashes(state, it, ts)`: writes every candidate-generation
fingerprint with the same timestamp. -/
def markAllHashes (sha : String → String) (sent : Ledger) (it : Item)
    (ts : Int) : Ledger :=
  (candidateIds sha it).foldl (fun s id => setKey s id (JVal.num ts)) sent

/-- Result record of `isAlreadySeen`. -/
structure SeenInfo where
  seen : Bool
  existingId : Option String
  primary : String
deriving DecidableEq, Repr

/-- `isAlreadySeen(state, it)`: first truthy candidate id wins. -/
def isAlreadySeen (sha : String → String) (sent : Ledger) (it : Item) :
    SeenInfo :=
  let ids := candidateIds sha it
  match ids.find? (fun id => truthyV (lookupKey sent id)) with
  | some id => ⟨true, some id, hashV3 sha it⟩
  | none => ⟨false, none, hashV3 sha it⟩

/-- `migrateToPrimaryIfNeeded(state, seenInfo)`: if the record matched and
its primary id is not truthy-present, silently copy the matched entry's
stored value to the primary id. -/
def migrateToPrimaryIfNeeded (sent : Ledger) (info : SeenInfo) : Ledger :=
  match info.existingId with
  | none => sent
  | some ex =>
    if info.seen && !(truthyV (lookupKey sent info.primary)) then
      setKey sent info.primary ((lookupKey sent ex).getD JVal.undef)
    else sent

/-- Whether `pruneOld` keeps a stored value given the current time:
kept iff it is a number not older than `now` minus the TTL. -/
def keepEntry (now : Int) : JVal → Bool
  | JVal.num ts => decide (now - STATE_TTL_DAYS * 24 * 60 * 60 * 1000 ≤ ts)
  | _ => false

/-- `pruneOld(state)`: deletes entries whose value is not a number or is
older than the cutoff. -/
def pruneOld (now : Int) (st : St) : St :=
  { st with sent := st.sent.filter (fun kv => keepEntry now kv.2) }

/-- One observable effect of a run: a per-item Discord POST, a summary
POST (one chunk or the "nothing found" message), or the final
`saveState` write.  The `ok` flag is the HTTP `res.ok` of that POST. -/
inductive Act where
  | post (content : String) (ok : Bool)
  | postSummaryMsg (content : String) (ok : Bool)
  | save (st : St)
deriving DecidableEq, Repr

/-- The message title built by `postToDiscord` for one item. -/
def postTitle (it : Item) : String :=
  let titleBits := (if it.price != "" then [it.price] else []) ++
                   (if it.user != "" then ["by " ++ it.user] else [])
  if titleBits.isEmpty then (if it.title != "" then it.title else "New Request")
  else String.intercalate (" — ") titleBits

/-- The per-item message body built by `postToDiscord`. -/
def postContent (it : Item) : String :=
  String.intercalate ("\n")
    (["**" ++ postTitle it ++ "**"] ++
     (if it.desc != "" then ["> " ++ it.desc] else []) ++
     (if it.whenF != "" then ["**When:** " ++ it.whenF] else []) ++
     [if it.link != "" then it.link else PAGE_URL])

/-- `postToDiscord(items)`: one POST per item, in order; the n-th POST of
the run gets outcome `orc n`, which the source only logs. -/
def postToDiscord (orc : Nat → Bool) : Nat → List Item → List Act
  | _, [] => []
  | n, it :: rest => Act.post (postContent it) (orc n) :: postToDiscord orc (n + 1) rest

/-- The summary header line `✅ Initial seed: **N** current request(s) found`. -/
def summaryHeader (items : List Item) : String :=
  "✅ Initial seed: **" ++ toString items.length ++ "** current request(s) found"

/-- One compact summary line per item, as built in `postSummaryToDiscord`. -/
def summaryLine (it : Item) : String :=
  let titleBits := (if it.price != "" then [it.price] else []) ++
                   (if it.user != "" then ["by " ++ it.user] else [])
  let title := if titleBits.isEmpty then "Request"
               else String.intercalate (" — ") titleBits
  let snippet := if it.desc != "" then
      sliceTo 140 it.desc ++ (if 140 < it.desc.length then "…" else "") else ""
  String.intercalate (" ")
    (["• **" ++ title ++ "**"] ++
     (if snippet != "" then ["— " ++ snippet] else []) ++
     ["\n" ++ (if it.link != "" then it.link else PAGE_URL)])

/-- The separator `"\n\n"` appended after the header and each line. -/
def sepC : List Char := ['\n', '\n']

/-- One iteration of the chunking loop: flush the buffer (trimmed at the
end) when appending the next line would exceed the 1900-character
budget, then append the line. -/
def chunkStep (acc : List (List Char) × List Char) (ln : List Char) :
    List (List Char) × List Char :=
  if 1900 < (acc.2 ++ ln ++ sepC).length then
    (acc.1 ++ [trimEndL acc.2], ln ++ sepC)
  else (acc.1, acc.2 ++ ln ++ sepC)

/-- The chunk list built by `postSummaryToDiscord` from the header and
the item lines: fold the loop, then push the final buffer if its `trim`
is nonempty. -/
def summaryChunksC (hdr : List Char) (lines : List (List Char)) :
    List (List Char) :=
  let st := lines.foldl chunkStep ([], hdr ++ sepC)
  if jsTrimL st.2 = [] then st.1 else st.1 ++ [trimEndL st.2]

/-- The item lines of the summary, as character lists. -/
def summaryLinesC (items : List Item) : List (List Char) :=
  items.map (fun it => (summaryLine it).data)

/-- The summary chunks for an item list, as strings. -/
def summaryChunks (items : List Item) : List String :=
  (summaryChunksC (summaryHeader items).data (summaryLinesC items)).map String.mk

/-- The "nothing found" message of the empty first run. -/
def seedEmptyContent : String := "ℹ️ Initial seed: no requests visible right now."

/-- Numbered summary-chunk POSTs. -/
def numberedSummary (orc : Nat → Bool) : Nat → List String → List Act
  | _, [] => []
  | n, c :: rest => Act.postSummaryMsg c (orc n) :: numberedSummary orc (n + 1) rest

/-- `postSummaryToDiscord(items)`: the single informational message when
there are no items, otherwise one POST per chunk. -/
def postSummaryToDiscord (orc : Nat → Bool) (items : List Item) : List Act :=
  if items.isEmpty then [Act.postSummaryMsg seedEmptyContent (orc 0)]
  else numberedSummary orc 0 (summaryChunks items)

/-- Concatenation of a list of segments, each followed by the separator. -/
def flatWithSep (ls : List (List Char)) : List Char :=
  (ls.map (fun l => l ++ sepC)).flatten

/-- The combined formatted summary text (header plus all item lines,
each segment followed by the blank-line separator), i.e. the final
buffer content if the loop never flushed. -/
def totalSummaryText (items : List Item) : String :=
  String.mk ((summaryHeader items).data ++ sepC ++ flatWithSep (summaryLinesC items))

/-- Whether a character list is nonempty and does not end in whitespace. -/
def endsNonWsB (l : List Char) : Bool :=
  match l.getLast? with
  | some c => !isJsSpace c
  | none => false

/-- Marking every item's full candidate set (`for it of items: markAllHashes`). -/
def markAllItems (sha : String → String) (sent : Ledger) (items : List Item)
    (now : Int) : Ledger :=
  items.foldl (fun s it => markAllHashes sha s it now) sent

/-- One iteration of the migration loop of `main`: look the item up and
migrate its primary id if it matched. -/
def migrateStep (sha : String → String) (s : Ledger) (it : Item) : Ledger :=
  let info := isAlreadySeen sha s it
  if info.seen then migrateToPrimaryIfNeeded s info else s

/-- The migration loop of `main` (lines "Migration: if any legacy hash
exists, add the primary v3 id"). -/
def migratePass (sha : String → String) (sent : Ledger) (items : List Item) :
    Ledger :=
  items.foldl (migrateStep sha) sent

/-- One iteration of the freshness loop of `main`: a seen item is
skipped; an unseen one is marked at once and collected for delivery. -/
def freshStep (sha : String → String) (now : Int)
    (acc : Ledger × List Item) (it : Item) : Ledger × List Item :=
  let info := isAlreadySeen sha acc.1 it
  if info.seen then acc
  else (markAllHashes sha acc.1 it now, acc.2 ++ [it])

/-- The freshness loop of `main`: collect unseen items, marking each one
in the same pass that decides it is new. -/
def freshPass (sha : String → String) (now : Int) (sent : Ledger)
    (items : List Item) : Ledger × List Item :=
  items.foldl (freshStep sha now) (sent, [])

/-- The incremental (steady-state) tail of `main`: migration pass,
freshness pass, per-item delivery of the fresh items, then `saveState`. -/
def incrementalRun (sha : String → String) (st : St) (items : List Item)
    (now : Int) (orc : Nat → Bool) : List Act × St :=
  let sent1 := migratePass sha st.sent items
  let fp := freshPass sha now sent1 items
  let st' : St := { st with sent := fp.1 }
  if fp.2.isEmpty then ([Act.save st'], st')
  else (postToDiscord orc 0 fp.2 ++ [Act.save st'], st')

/-- The state produced by either seeding branch: every current item's
candidate set marked, `initialized = true` with a timestamp, and the
version field rewritten. -/
def seededState (sha : String → String) (st : St) (items : List Item)
    (now : Int) (nowIso : String) : St :=
  { version := STATE_VERSION, initialized := true,
    initializedAt := some nowIso,
    sent := markAllItems sha st.sent items now }

/-- The `main` run after scraping: prune, then silent seed / first-run
broadcast / incremental, returning the action trace and the state passed
to the final `saveState`. -/
def mainRun (sha : String → String) (firstRun seedIfEmpty : Bool) (st0 : St)
    (items : List Item) (now : Int) (nowIso : String) (orc : Nat → Bool) :
    List Act × St :=
  let st1 := pruneOld now st0
  let empty := !st1.initialized && st1.sent.isEmpty
  if empty && !firstRun && seedIfEmpty then
    let st2 := seededState sha st1 items now nowIso
    ([Act.save st2], st2)
  else if firstRun && !st1.initialized then
    let st2 := seededState sha st1 items now nowIso
    (postSummaryToDiscord orc items ++ [Act.save st2], st2)
  else incrementalRun sha st1 items now orc

/-- The identity digest, used to instantiate the `sha` parameter in
concrete witnesses (injective, so a valid stand-in for a collision-free
digest). -/
def idSha : String → String := fun s => s

/-- An all-successful delivery oracle for concrete witnesses. -/
def allOk : Nat → Bool := fun _ => true

/-- An all-failing delivery oracle. -/
def allFail : Nat → Bool := fun _ => false

/-- A record whose summary line exceeds the 1900-character budget and
ends in whitespace (a 1900-character link with a trailing space). -/
def oversizedItem : Item :=
  { title := "", meta := "", user := "", price := "", desc := "", whenF := "",
    link := String.mk (List.replicate 1899 'a' ++ [' ']) }

/-- The one-item list used as the C2 counterexample. -/
def oversizedItems : List Item := [oversizedItem]

/-- A record whose summary line is comfortably below the budget. -/
def midItem : Item :=
  { title := "", meta := "", user := "", price := "", desc := "", whenF := "",
    link := String.mk (List.replicate 1000 'a') }

/-- Two mid-sized records whose combined summary text exceeds the
budget: used as the C2 witness input. -/
def midItems : List Item := [midItem, midItem]

/-- The duplicate-pair record of the end-to-end scenario
(`{title:"$50 reward", user:"alice", link:"https://x/1"}`). -/
def dupItem : Item :=
  { title := "$50 reward", meta := "", user := "alice", price := "",
    desc := "", whenF := "", link := "https://x/1" }

/-- An uninitialised loaded state whose only ledger entry is stale
(timestamp 0): input of the C10 counterexample. -/
def staleSt : St :=
  { version := STATE_VERSION, initialized := false, initializedAt := none,
    sent := [(("k"), JVal.num 0)] }

/-! ## Basic lemmas about the ledger operations -/

theorem lookupKey_setKey (m : Ledger) (k k' : String) (v : JVal) :
    lookupKey (setKey m k v) k' = if k = k' then some v else lookupKey m k' := by
  induction m with
  | nil => simp [setKey, lookupKey]
  | cons kv rest ih =>
    obtain ⟨k0, v0⟩ := kv
    by_cases h : k0 = k
    · subst h
      simp only [setKey, if_pos rfl, lookupKey]
      by_cases h' : k0 = k' <;> simp [lookupKey, h']
    · simp only [setKey, if_neg h, lookupKey, ih]
      by_cases h' : k0 = k'
      · subst h'
        have hk : k ≠ k0 := fun hh => h hh.symm
        simp [if_neg hk]
      · simp [h']

theorem markAllHashes_eq (sha : String → String) (sent : Ledger) (it : Item)
    (ts : Int) :
    markAllHashes sha sent it ts =
      setKey (setKey (setKey sent (hashV3 sha it) (JVal.num ts))
        (hashV2 sha it) (JVal.num ts)) (hashV1 sha it) (JVal.num ts) := rfl

theorem lookupKey_markAllHashes_mem (sha : String → String) (sent : Ledger)
    (it : Item) (ts : Int) (id : String) (h : id ∈ candidateIds sha it) :
    lookupKey (markAllHashes sha sent it ts) id = some (JVal.num ts) := by
  simp only [candidateIds, List.mem_cons, List.not_mem_nil, or_false] at h
  simp only [markAllHashes_eq, lookupKey_setKey]
  rcases h with h | h | h <;> subst h <;> split_ifs <;> simp_all

theorem lookupKey_markAllHashes_ne (sha : String → String) (sent : Ledger)
    (it : Item) (ts : Int) (id : String) (h : id ∉ candidateIds sha it) :
    lookupKey (markAllHashes sha sent it ts) id = lookupKey sent id := by
  simp only [candidateIds, List.mem_cons, List.not_mem_nil, or_false,
    not_or] at h
  simp only [markAllHashes_eq, lookupKey_setKey]
  split_ifs <;> simp_all

theorem lookupKey_markAllHashes_pres (sha : String → String) (sent : Ledger)
    (it : Item) (ts : Int) (id : String)
    (h : lookupKey sent id = some (JVal.num ts)) :
    lookupKey (markAllHashes sha sent it ts) id = some (JVal.num ts) := by
  simp only [markAllHashes_eq, lookupKey_setKey]
  split_ifs <;> simp_all

theorem markAllItems_cons (sha : String → String) (sent : Ledger) (it : Item)
    (items : List Item) (now : Int) :
    markAllItems sha sent (it :: items) now =
      markAllItems sha (markAllHashes sha sent it now) items now := rfl

theorem lookupKey_markAllItems_pres (sha : String → String)
    (items : List Item) (sent : Ledger) (now : Int) (id : String)
    (h : lookupKey sent id = some (JVal.num now)) :
    lookupKey (markAllItems sha sent items now) id = some (JVal.num now) := by
  induction items generalizing sent with
  | nil => exact h
  | cons it rest ih =>
    rw [markAllItems_cons]
    exact ih _ (lookupKey_markAllHashes_pres sha sent it now id h)

theorem lookupKey_markAllItems_of_mem (sha : String → String)
    (items : List Item) (sent : Ledger) (now : Int) (it : Item) (id : String)
    (hit : it ∈ items) (hid : id ∈ candidateIds sha it) :
    lookupKey (markAllItems sha sent items now) id = some (JVal.num now) := by
  revert hit
  induction items generalizing sent with
  | nil => intro hit; cases hit
  | cons it0 rest ih =>
    intro hit
    rw [markAllItems_cons]
    rcases List.mem_cons.mp hit with h | h
    · subst h
      exact lookupKey_markAllItems_pres sha rest _ now id
        (lookupKey_markAllHashes_mem sha _ it now id hid)
    · exact ih _ h

theorem pruneOld_singleton (now : Int) (ver : String) (i : Bool)
    (a : Option String) (k : String) (v : JVal) :
    (pruneOld now ⟨ver, i, a, [(k, v)]⟩).sent =
      if keepEntry now v then [(k, v)] else [] := by
  simp only [pruneOld, List.filter_cons, List.filter_nil]

/-! ## C8: pruning -/

/-- C8: `pruneOld` keeps exactly the entries whose stored value is a
numeric timestamp at least `now − ttl`; equivalently it removes exactly
the non-numeric and the too-old entries.  In particular a singleton
entry aged `ttl + 1` days is removed, one aged `ttl − 1` days is
retained, and a string-valued (non-numeric) entry is removed regardless
of age. -/
theorem C8_prune :
    (∀ (now : Int) (st : St) (kv : String × JVal),
        kv ∈ (pruneOld now st).sent ↔
          kv ∈ st.sent ∧ keepEntry now kv.2 = true) ∧
    (∀ (now : Int) (v : JVal),
        keepEntry now v = false ↔
          (∀ t : Int, v ≠ JVal.num t) ∨
          (∃ t : Int, v = JVal.num t ∧
            t < now - STATE_TTL_DAYS * 24 * 60 * 60 * 1000)) ∧
    (∀ (now : Int) (k ver : String) (i : Bool) (a : Option String),
        lookupKey (pruneOld now
            ⟨ver, i, a, [(k, JVal.num (now - 15 * 86400000))]⟩).sent k
          = none) ∧
    (∀ (now : Int) (k ver : String) (i : Bool) (a : Option String),
        lookupKey (pruneOld now
            ⟨ver, i, a, [(k, JVal.num (now - 13 * 86400000))]⟩).sent k
          = some (JVal.num (now - 13 * 86400000))) ∧
    (∀ (now : Int) (k s ver : String) (i : Bool) (a : Option String),
        lookupKey (pruneOld now ⟨ver, i, a, [(k, JVal.str s)]⟩).sent k
          = none) := by
  refine ⟨?_, ?_, ?_, ?_, ?_⟩
  · intro now st kv
    simp [pruneOld, List.mem_filter]
  · intro now v
    cases v with
    | num t =>
      simp only [keepEntry, decide_eq_false_iff_not, not_le]
      constructor
      · intro h
        exact Or.inr ⟨t, rfl, h⟩
      · rintro (h | ⟨t', ht', h⟩)
        · exact absurd rfl (h t)
        · cases ht'; exact h
    | str s => simp [keepEntry]
    | boolean b => simp [keepEntry]
    | null => simp [keepEntry]
    | undef => simp [keepEntry]
  · intro now k ver i a
    have h : ¬ (keepEntry now (JVal.num (now - 15 * 86400000)) = true) := by
      simp only [keepEntry, STATE_TTL_DAYS, decide_eq_true_eq, not_le]
      omega
    rw [pruneOld_singleton, if_neg h]
    rfl
  · intro now k ver i a
    have h : keepEntry now (JVal.num (now - 13 * 86400000)) = true := by
      simp only [keepEntry, STATE_TTL_DAYS, decide_eq_true_eq]
      omega
    rw [pruneOld_singleton, if_pos h]
    simp [lookupKey]
  · intro now k s ver i a
    have h : ¬ (keepEntry now (JVal.str s) = true) := by simp [keepEntry]
    rw [pruneOld_singleton, if_neg h]
    rfl

/-! ## Lemmas about seen-checking, migration, and the run branches -/

theorem exists_of_truthyV (o : Option JVal) (h : truthyV o = true) :
    ∃ w, o = some w ∧ truthyV (some w) = true := by
  cases o with
  | none => simp [truthyV] at h
  | some w => exact ⟨w, rfl, h⟩

theorem isAlreadySeen_eq (sha : String → String) (sent : Ledger) (r : Item) :
    isAlreadySeen sha sent r =
      if truthyV (lookupKey sent (hashV3 sha r)) then
        ⟨true, some (hashV3 sha r), hashV3 sha r⟩
      else if truthyV (lookupKey sent (hashV2 sha r)) then
        ⟨true, some (hashV2 sha r), hashV3 sha r⟩
      else if truthyV (lookupKey sent (hashV1 sha r)) then
        ⟨true, some (hashV1 sha r), hashV3 sha r⟩
      else ⟨false, none, hashV3 sha r⟩ := by
  by_cases h3 : truthyV (lookupKey sent (hashV3 sha r)) <;>
    by_cases h2 : truthyV (lookupKey sent (hashV2 sha r)) <;>
      by_cases h1 : truthyV (lookupKey sent (hashV1 sha r)) <;>
        simp [isAlreadySeen, candidateIds, List.find?, h3, h2, h1]

theorem pruneOld_initialized (now : Int) (st : St) :
    (pruneOld now st).initialized = st.initialized := rfl

theorem pruneOld_version (now : Int) (st : St) :
    (pruneOld now st).version = st.version := rfl

theorem pruneOld_initializedAt (now : Int) (st : St) :
    (pruneOld now st).initializedAt = st.initializedAt := rfl

theorem mem_postToDiscord (orc : Nat → Bool) :
    ∀ (n : Nat) (items : List Item) (a : Act),
      a ∈ postToDiscord orc n items → ∃ c ok, a = Act.post c ok := by
  intro n items
  induction items generalizing n with
  | nil => intro a ha; cases ha
  | cons it rest ih =>
    intro a ha
    rcases List.mem_cons.mp ha with h | h
    · exact ⟨_, _, h⟩
    · exact ih _ a h

theorem mem_numberedSummary (orc : Nat → Bool) :
    ∀ (n : Nat) (cs : List String) (a : Act),
      a ∈ numberedSummary orc n cs → ∃ c ok, a = Act.postSummaryMsg c ok := by
  intro n cs
  induction cs generalizing n with
  | nil => intro a ha; cases ha
  | cons c rest ih =>
    intro a ha
    rcases List.mem_cons.mp ha with h | h
    · exact ⟨_, _, h⟩
    · exact ih _ a h

theorem incrementalRun_eq (sha : String → String) (st : St) (items : List Item)
    (now : Int) (orc : Nat → Bool) :
    incrementalRun sha st items now orc =
      (postToDiscord orc 0
          (freshPass sha now (migratePass sha st.sent items) items).2 ++
        [Act.save
          { st with
            sent := (freshPass sha now (migratePass sha st.sent items) items).1 }],
       { st with
         sent := (freshPass sha now (migratePass sha st.sent items) items).1 }) := by
  simp only [incrementalRun]
  cases hfp : (freshPass sha now (migratePass sha st.sent items) items).2 with
  | nil => simp [hfp, postToDiscord, List.isEmpty]
  | cons a l => simp [hfp, List.isEmpty]

/-! ## C1: seen across generations, silent migration -/

/-- C1: if the ledger holds no primary (v3) entry for record `r` but a
truthy legacy (v2 or v1) entry, then `isAlreadySeen` reports seen, the
matched id is the first truthy legacy id, `migrateToPrimaryIfNeeded`
copies exactly that legacy entry's stored timestamp to the primary id,
and an incremental run over `[r]` produces no delivery action, only the
persisting `save` — the record is not treated as new. -/
theorem C1_seen_across_generations (sha : String → String) (sent : Ledger)
    (r : Item) (ver : String) (ini : Bool) (iat : Option String)
    (now : Int) (orc : Nat → Bool)
    (hv3 : lookupKey sent (hashV3 sha r) = none)
    (hleg : truthyV (lookupKey sent (hashV2 sha r)) = true ∨
            truthyV (lookupKey sent (hashV1 sha r)) = true) :
    (isAlreadySeen sha sent r).seen = true ∧
    (isAlreadySeen sha sent r).existingId =
      some (if truthyV (lookupKey sent (hashV2 sha r)) then hashV2 sha r
            else hashV1 sha r) ∧
    lookupKey (migrateToPrimaryIfNeeded sent (isAlreadySeen sha sent r))
        (hashV3 sha r) =
      lookupKey sent
        (if truthyV (lookupKey sent (hashV2 sha r)) then hashV2 sha r
         else hashV1 sha r) ∧
    (incrementalRun sha ⟨ver, ini, iat, sent⟩ [r] now orc).1 =
      [Act.save (incrementalRun sha ⟨ver, ini, iat, sent⟩ [r] now orc).2] ∧
    lookupKey (incrementalRun sha ⟨ver, ini, iat, sent⟩ [r] now orc).2.sent
        (hashV3 sha r) =
      lookupKey sent
        (if truthyV (lookupKey sent (hashV2 sha r)) then hashV2 sha r
         else hashV1 sha r) := by
  have h3 : truthyV (lookupKey sent (hashV3 sha r)) = false := by
    rw [hv3]; rfl
  set ex := if truthyV (lookupKey sent (hashV2 sha r)) then hashV2 sha r
            else hashV1 sha r with hex
  have hext : truthyV (lookupKey sent ex) = true := by
    rw [hex]
    rcases hleg with h | h
    · rw [if_pos h]; exact h
    · by_cases h2 : truthyV (lookupKey sent (hashV2 sha r)) = true
      · rw [if_pos h2]; exact h2
      · rw [if_neg h2]; exact h
  have hinfo : isAlreadySeen sha sent r = ⟨true, some ex, hashV3 sha r⟩ := by
    rw [isAlreadySeen_eq, if_neg (by simp [h3])]
    by_cases h2 : truthyV (lookupKey sent (hashV2 sha r)) = true
    · rw [if_pos h2, hex, if_pos h2]
    · have h1 : truthyV (lookupKey sent (hashV1 sha r)) = true := by
        rcases hleg with h | h
        · exact absurd h h2
        · exact h
      rw [if_neg h2, if_pos h1, hex, if_neg h2]
  obtain ⟨w, hw, hwt⟩ := exists_of_truthyV _ hext
  have hmig : migrateToPrimaryIfNeeded sent (isAlreadySeen sha sent r) =
      setKey sent (hashV3 sha r) w := by
    rw [hinfo]
    simp only [migrateToPrimaryIfNeeded, h3]
    rw [hw]
    simp
  have hlook : lookupKey (migrateToPrimaryIfNeeded sent (isAlreadySeen sha sent r))
      (hashV3 sha r) = lookupKey sent ex := by
    rw [hmig, lookupKey_setKey, if_pos rfl, hw]
  have hmigpass : migratePass sha sent [r] = setKey sent (hashV3 sha r) w := by
    simp only [migratePass, migrateStep, List.foldl_cons, List.foldl_nil,
      hinfo]
    rw [← hinfo, hmig]
    simp
  have hseen2 : truthyV (lookupKey (setKey sent (hashV3 sha r) w)
      (hashV3 sha r)) = true := by
    rw [lookupKey_setKey, if_pos rfl]
    exact hwt
  have hfresh : freshPass sha now (migratePass sha sent [r]) [r] =
      (setKey sent (hashV3 sha r) w, []) := by
    rw [hmigpass]
    simp only [freshPass, freshStep, List.foldl_cons, List.foldl_nil]
    rw [isAlreadySeen_eq, if_pos hseen2]
    simp
  refine ⟨by rw [hinfo], by rw [hinfo], hlook, ?_, ?_⟩
  · rw [incrementalRun_eq]
    simp only [hfresh, postToDiscord, List.nil_append]
  · rw [incrementalRun_eq]
    simp only [hfresh]
    rw [lookupKey_setKey, if_pos rfl, hw]

/-- Witness for C1 at a concrete input: a ledger holding only the v2
fingerprint of `dupItem` (under the identity digest). -/
theorem C1_seen_across_generations_witness :
    (lookupKey [((hashV2 idSha dupItem), JVal.num 7)]
        (hashV3 idSha dupItem) = none ∧
      truthyV (lookupKey [((hashV2 idSha dupItem), JVal.num 7)]
        (hashV2 idSha dupItem)) = true) ∧
    lookupKey
        (migrateToPrimaryIfNeeded [((hashV2 idSha dupItem), JVal.num 7)]
          (isAlreadySeen idSha [((hashV2 idSha dupItem), JVal.num 7)] dupItem))
        (hashV3 idSha dupItem) = some (JVal.num 7) := by
  refine ⟨⟨by decide, by decide⟩, ?_⟩
  have h := C1_seen_across_generations idSha
      [((hashV2 idSha dupItem), JVal.num 7)] dupItem STATE_VERSION true none
      5 allOk (by decide) (Or.inl (by decide))
  have h2 := h.2.2.1
  rw [if_pos (by decide)] at h2
  rw [h2]
  decide

theorem mem_postSummaryToDiscord (orc : Nat → Bool) (items : List Item)
    (a : Act) (h : a ∈ postSummaryToDiscord orc items) :
    ∃ c ok, a = Act.postSummaryMsg c ok := by
  unfold postSummaryToDiscord at h
  split at h
  · simp at h
    exact ⟨_, _, h⟩
  · exact mem_numberedSummary orc 0 _ a h

theorem incrementalRun_no_summary (sha : String → String) (st : St)
    (items : List Item) (now : Int) (orc : Nat → Bool) :
    ∀ a ∈ (incrementalRun sha st items now orc).1, ∀ c ok,
      a ≠ Act.postSummaryMsg c ok := by
  intro a ha c ok
  rw [incrementalRun_eq] at ha
  rcases List.mem_append.mp ha with h | h
  · obtain ⟨c', ok', rfl⟩ := mem_postToDiscord orc 0 _ a h
    simp
  · simp only [List.mem_singleton] at h
    subst h
    simp

/-! ## C3: first-run broadcast seeding -/

/-- C3: starting from an uninitialised state with first-run mode on, the
run consists of exactly the one summary broadcast (which is the single
informational "nothing found" message when there are no records)
followed by the state save; no per-item delivery occurs, every current
record's full candidate fingerprint set is marked with the run
timestamp, and the persisted state has `initialized = true` with the
timestamp string. -/
theorem C3_first_run_broadcast (sha : String → String) (sie : Bool) (st0 : St)
    (items : List Item) (now : Int) (nowIso : String) (orc : Nat → Bool)
    (hinit : st0.initialized = false) :
    (mainRun sha true sie st0 items now nowIso orc).1 =
      postSummaryToDiscord orc items ++
        [Act.save (mainRun sha true sie st0 items now nowIso orc).2] ∧
    (items = [] →
      (mainRun sha true sie st0 items now nowIso orc).1 =
        [Act.postSummaryMsg seedEmptyContent (orc 0),
         Act.save (mainRun sha true sie st0 items now nowIso orc).2]) ∧
    (∀ a ∈ (mainRun sha true sie st0 items now nowIso orc).1,
      ∀ c ok, a ≠ Act.post c ok) ∧
    (∀ it ∈ items, ∀ id ∈ candidateIds sha it,
      lookupKey (mainRun sha true sie st0 items now nowIso orc).2.sent id =
        some (JVal.num now)) ∧
    (mainRun sha true sie st0 items now nowIso orc).2.initialized = true ∧
    (mainRun sha true sie st0 items now nowIso orc).2.initializedAt =
      some nowIso := by
  have h2 : (pruneOld now st0).initialized = false := by
    rw [pruneOld_initialized, hinit]
  have hbr : mainRun sha true sie st0 items now nowIso orc =
      (postSummaryToDiscord orc items ++
        [Act.save (seededState sha (pruneOld now st0) items now nowIso)],
       seededState sha (pruneOld now st0) items now nowIso) := by
    simp [mainRun, h2]
  refine ⟨by rw [hbr], ?_, ?_, ?_, by rw [hbr]; rfl, by rw [hbr]; rfl⟩
  · intro h
    subst h
    rw [hbr]
    simp [postSummaryToDiscord]
  · intro a ha c ok
    rw [hbr] at ha
    rcases List.mem_append.mp ha with h | h
    · obtain ⟨c', ok', rfl⟩ := mem_postSummaryToDiscord orc items a h
      simp
    · simp only [List.mem_singleton] at h
      subst h
      simp
  · intro it hit id hid
    rw [hbr]
    exact lookupKey_markAllItems_of_mem sha items _ now it id hit hid

/-- Witness for C3: a fresh state with no items yields exactly the
informational message and the save. -/
theorem C3_first_run_broadcast_witness :
    (⟨STATE_VERSION, false, none, ([] : Ledger)⟩ : St).initialized = false ∧
    (mainRun idSha true true ⟨STATE_VERSION, false, none, []⟩ [] 5 ("t")
        allOk).1 =
      [Act.postSummaryMsg seedEmptyContent (allOk 0),
       Act.save (mainRun idSha true true ⟨STATE_VERSION, false, none, []⟩ []
          5 ("t") allOk).2] :=
  ⟨rfl, (C3_first_run_broadcast idSha true ⟨STATE_VERSION, false, none, []⟩
      [] 5 ("t") allOk rfl).2.1 rfl⟩

/-! ## C4: silent seeding -/

/-- C4: starting from a fresh (uninitialised, empty-ledger) state with
first-run mode disabled and seed-if-empty enabled, the run makes no
delivery call at all (the trace is just the state save), writes every
current record's full candidate fingerprint set into the ledger, and
sets `initialized = true` with the timestamp string. -/
theorem C4_silent_seed (sha : String → String) (st0 : St) (items : List Item)
    (now : Int) (nowIso : String) (orc : Nat → Bool)
    (hinit : st0.initialized = false) (hsent : st0.sent = []) :
    (mainRun sha false true st0 items now nowIso orc).1 =
      [Act.save (mainRun sha false true st0 items now nowIso orc).2] ∧
    (∀ it ∈ items, ∀ id ∈ candidateIds sha it,
      lookupKey (mainRun sha false true st0 items now nowIso orc).2.sent id =
        some (JVal.num now)) ∧
    (mainRun sha false true st0 items now nowIso orc).2.initialized = true ∧
    (mainRun sha false true st0 items now nowIso orc).2.initializedAt =
      some nowIso := by
  have h1 : (pruneOld now st0).sent = [] := by simp [pruneOld, hsent]
  have h2 : (pruneOld now st0).initialized = false := by
    rw [pruneOld_initialized, hinit]
  have hbr : mainRun sha false true st0 items now nowIso orc =
      ([Act.save (seededState sha (pruneOld now st0) items now nowIso)],
       seededState sha (pruneOld now st0) items now nowIso) := by
    simp [mainRun, h1, h2]
  refine ⟨by rw [hbr], ?_, by rw [hbr]; rfl, by rw [hbr]; rfl⟩
  intro it hit id hid
  rw [hbr]
  exact lookupKey_markAllItems_of_mem sha items _ now it id hit hid

/-- Witness for C4: a fresh state seeded with one record makes no
delivery and ends initialised. -/
theorem C4_silent_seed_witness :
    ((⟨STATE_VERSION, false, none, ([] : Ledger)⟩ : St).initialized = false ∧
      (⟨STATE_VERSION, false, none, ([] : Ledger)⟩ : St).sent = []) ∧
    (mainRun idSha false true ⟨STATE_VERSION, false, none, []⟩ [dupItem] 5
        ("t") allOk).1 =
      [Act.save (mainRun idSha false true ⟨STATE_VERSION, false, none, []⟩
          [dupItem] 5 ("t") allOk).2] ∧
    (mainRun idSha false true ⟨STATE_VERSION, false, none, []⟩ [dupItem] 5
        ("t") allOk).2.initialized = true :=
  ⟨⟨rfl, rfl⟩,
    (C4_silent_seed idSha ⟨STATE_VERSION, false, none, []⟩ [dupItem] 5 ("t")
        allOk rfl rfl).1,
    (C4_silent_seed idSha ⟨STATE_VERSION, false, none, []⟩ [dupItem] 5 ("t")
        allOk rfl rfl).2.2.1⟩

/-! ## C5: first-run mode on an already-initialised state -/

/-- C5: if the loaded state is already initialised, a run with first-run
mode still enabled performs exactly the incremental path: its full
observable behaviour (trace and saved state) equals both the extracted
incremental run on the pruned state and a run with first-run mode
disabled, and it never emits a summary message. -/
theorem C5_first_run_idempotent (sha : String → String) (sie sie' : Bool)
    (st0 : St) (items : List Item) (now : Int) (nowIso nowIso' : String)
    (orc : Nat → Bool) (hinit : st0.initialized = true) :
    mainRun sha true sie st0 items now nowIso orc =
      incrementalRun sha (pruneOld now st0) items now orc ∧
    mainRun sha true sie st0 items now nowIso orc =
      mainRun sha false sie' st0 items now nowIso' orc ∧
    (∀ a ∈ (mainRun sha true sie st0 items now nowIso orc).1, ∀ c ok,
      a ≠ Act.postSummaryMsg c ok) := by
  have h2 : (pruneOld now st0).initialized = true := by
    rw [pruneOld_initialized, hinit]
  have ha : mainRun sha true sie st0 items now nowIso orc =
      incrementalRun sha (pruneOld now st0) items now orc := by
    simp [mainRun, h2]
  have hb : mainRun sha false sie' st0 items now nowIso' orc =
      incrementalRun sha (pruneOld now st0) items now orc := by
    simp [mainRun, h2]
  refine ⟨ha, by rw [ha, hb], ?_⟩
  rw [ha]
  exact incrementalRun_no_summary sha (pruneOld now st0) items now orc

/-- Witness for C5: with an initialised state the two mode settings give
literally the same run. -/
theorem C5_first_run_idempotent_witness :
    (⟨STATE_VERSION, true, none, ([] : Ledger)⟩ : St).initialized = true ∧
    mainRun idSha true true ⟨STATE_VERSION, true, none, []⟩ [dupItem] 5 ("t")
        allOk =
      mainRun idSha false true ⟨STATE_VERSION, true, none, []⟩ [dupItem] 5
        ("u") allOk :=
  ⟨rfl, (C5_first_run_idempotent idSha true true ⟨STATE_VERSION, true, none,
      []⟩ [dupItem] 5 ("t") ("u") allOk rfl).2.1⟩

/-! ## Lemmas about the freshness pass -/

theorem truthyV_num (now : Int) (hnow : now ≠ 0) :
    truthyV (some (JVal.num now)) = true := by
  simp [truthyV, bne_iff_ne, hnow]

theorem seen_of_truthy_primary (sha : String → String) (sent : Ledger)
    (r : Item) (h : truthyV (lookupKey sent (hashV3 sha r)) = true) :
    (isAlreadySeen sha sent r).seen = true := by
  rw [isAlreadySeen_eq, if_pos h]

theorem exists_truthy_of_seen (sha : String → String) (sent : Ledger)
    (r : Item) (h : (isAlreadySeen sha sent r).seen = true) :
    ∃ id ∈ candidateIds sha r, truthyV (lookupKey sent id) = true := by
  by_cases t3 : truthyV (lookupKey sent (hashV3 sha r)) = true
  · exact ⟨hashV3 sha r, by simp [candidateIds], t3⟩
  · by_cases t2 : truthyV (lookupKey sent (hashV2 sha r)) = true
    · exact ⟨hashV2 sha r, by simp [candidateIds], t2⟩
    · by_cases t1 : truthyV (lookupKey sent (hashV1 sha r)) = true
      · exact ⟨hashV1 sha r, by simp [candidateIds], t1⟩
      · rw [isAlreadySeen_eq, if_neg t3, if_neg t2, if_neg t1] at h
        simp at h

theorem isAlreadySeen_false (sha : String → String) (sent : Ledger) (b : Item)
    (h : ∀ id ∈ candidateIds sha b, truthyV (lookupKey sent id) = false) :
    isAlreadySeen sha sent b = ⟨false, none, hashV3 sha b⟩ := by
  rw [isAlreadySeen_eq,
    if_neg (by simp [h (hashV3 sha b) (by simp [candidateIds])]),
    if_neg (by simp [h (hashV2 sha b) (by simp [candidateIds])]),
    if_neg (by simp [h (hashV1 sha b) (by simp [candidateIds])])]

theorem truthy_markAllHashes_pres (sha : String → String) (sent : Ledger)
    (it : Item) (now : Int) (id : String) (hnow : now ≠ 0)
    (h : truthyV (lookupKey sent id) = true) :
    truthyV (lookupKey (markAllHashes sha sent it now) id) = true := by
  by_cases hm : id ∈ candidateIds sha it
  · rw [lookupKey_markAllHashes_mem sha sent it now id hm]
    exact truthyV_num now hnow
  · rw [lookupKey_markAllHashes_ne sha sent it now id hm]
    exact h

theorem truthy_freshStep_pres (sha : String → String) (now : Int)
    (acc : Ledger × List Item) (it : Item) (id : String) (hnow : now ≠ 0)
    (h : truthyV (lookupKey acc.1 id) = true) :
    truthyV (lookupKey (freshStep sha now acc it).1 id) = true := by
  unfold freshStep
  by_cases hs : (isAlreadySeen sha acc.1 it).seen
  · simpa [hs] using h
  · simp only [hs, Bool.false_eq_true, if_false]
    exact truthy_markAllHashes_pres sha acc.1 it now id hnow h

theorem truthy_freshFold_pres (sha : String → String) (now : Int)
    (hnow : now ≠ 0) :
    ∀ (items : List Item) (acc : Ledger × List Item) (id : String),
      truthyV (lookupKey acc.1 id) = true →
      truthyV (lookupKey ((items.foldl (freshStep sha now) acc)).1 id)
        = true := by
  intro items
  induction items with
  | nil => intro acc id h; exact h
  | cons it rest ih =>
    intro acc id h
    rw [List.foldl_cons]
    exact ih _ id (truthy_freshStep_pres sha now acc it id hnow h)

theorem freshPass_fold_marked (sha : String → String) (now : Int) :
    ∀ (items : List Item) (acc : Ledger × List Item),
      (∀ it ∈ acc.2, ∀ id ∈ candidateIds sha it,
          lookupKey acc.1 id = some (JVal.num now)) →
      ∀ it ∈ (items.foldl (freshStep sha now) acc).2,
        ∀ id ∈ candidateIds sha it,
          lookupKey (items.foldl (freshStep sha now) acc).1 id =
            some (JVal.num now) := by
  intro items
  induction items with
  | nil => intro acc h; exact h
  | cons it0 rest ih =>
    intro acc h
    rw [List.foldl_cons]
    apply ih
    unfold freshStep
    by_cases hs : (isAlreadySeen sha acc.1 it0).seen
    · simpa [hs] using h
    · simp only [hs, Bool.false_eq_true, if_false]
      intro it hit id hid
      rcases List.mem_append.mp hit with hmem | hmem
      · exact lookupKey_markAllHashes_pres sha acc.1 it0 now id
          (h it hmem id hid)
      · simp only [List.mem_singleton] at hmem
        subst hmem
        exact lookupKey_markAllHashes_mem sha acc.1 it now id hid

theorem freshPass_marked (sha : String → String) (now : Int) (sent : Ledger)
    (items : List Item) :
    ∀ it ∈ (freshPass sha now sent items).2, ∀ id ∈ candidateIds sha it,
      lookupKey (freshPass sha now sent items).1 id = some (JVal.num now) :=
  freshPass_fold_marked sha now items (sent, [])
    (by intro it hmem; cases hmem)

theorem freshPass_all_recorded (sha : String → String) (now : Int)
    (hnow : now ≠ 0) :
    ∀ (items : List Item) (acc : Ledger × List Item),
      ∀ it ∈ items, ∃ id ∈ candidateIds sha it,
        truthyV (lookupKey ((items.foldl (freshStep sha now) acc)).1 id)
          = true := by
  intro items
  induction items with
  | nil => intro acc it hmem; cases hmem
  | cons it0 rest ih =>
    intro acc it hmem
    rw [List.foldl_cons]
    rcases List.mem_cons.mp hmem with h | h
    · subst h
      by_cases hs : (isAlreadySeen sha acc.1 it).seen
      · obtain ⟨id, hidmem, hidt⟩ := exists_truthy_of_seen sha acc.1 it hs
        refine ⟨id, hidmem, ?_⟩
        apply truthy_freshFold_pres sha now hnow rest
        have hstep : (freshStep sha now acc it).1 = acc.1 := by
          simp [freshStep, hs]
        rw [hstep]
        exact hidt
      · refine ⟨hashV3 sha it, by simp [candidateIds], ?_⟩
        apply truthy_freshFold_pres sha now hnow rest
        have hstep : (freshStep sha now acc it).1 =
            markAllHashes sha acc.1 it now := by
          simp [freshStep, hs]
        rw [hstep,
          lookupKey_markAllHashes_mem sha acc.1 it now _
            (by simp [candidateIds])]
        exact truthyV_num now hnow
    · exact ih _ it h

/-! ## C7: marking precedes delivery; persistence is failure-independent -/

/-- C7: in an incremental run, the persisted state does not depend on
the per-message delivery outcomes; the trace is the per-item POSTs of
the fresh records followed by the single `save`, whose state already
contains every fresh record's full candidate set with the run timestamp
(marking happened in the pass that decided newness, before delivery was
attempted); consequently every fresh record is reported as already seen
by the persisted ledger, so it is not re-announced on a later run. -/
theorem C7_mark_before_deliver (sha : String → String) (st : St)
    (items : List Item) (now : Int) (orc orc' : Nat → Bool)
    (hnow : now ≠ 0) :
    (incrementalRun sha st items now orc).2 =
      (incrementalRun sha st items now orc').2 ∧
    (incrementalRun sha st items now orc).1 =
      postToDiscord orc 0
          (freshPass sha now (migratePass sha st.sent items) items).2 ++
        [Act.save (incrementalRun sha st items now orc).2] ∧
    (∀ it ∈ (freshPass sha now (migratePass sha st.sent items) items).2,
      ∀ id ∈ candidateIds sha it,
        lookupKey (incrementalRun sha st items now orc).2.sent id =
          some (JVal.num now)) ∧
    (∀ it ∈ (freshPass sha now (migratePass sha st.sent items) items).2,
      (isAlreadySeen sha (incrementalRun sha st items now orc).2.sent
        it).seen = true) := by
  refine ⟨by rw [incrementalRun_eq, incrementalRun_eq],
    by rw [incrementalRun_eq], ?_, ?_⟩
  · intro it hit id hid
    rw [incrementalRun_eq]
    exact freshPass_marked sha now (migratePass sha st.sent items) items it
      hit id hid
  · intro it hit
    apply seen_of_truthy_primary
    have h := freshPass_marked sha now (migratePass sha st.sent items) items
      it hit (hashV3 sha it) (by simp [candidateIds])
    rw [incrementalRun_eq]
    simp only at h ⊢
    rw [h]
    exact truthyV_num now hnow

/-- Witness for C7: one fresh record, delivered once with an
all-failures oracle, is still marked in the saved state. -/
theorem C7_mark_before_deliver_witness :
    ((5 : Int) ≠ 0) ∧
    (incrementalRun idSha ⟨STATE_VERSION, true, none, []⟩ [dupItem] 5
        allFail).2 =
      (incrementalRun idSha ⟨STATE_VERSION, true, none, []⟩ [dupItem] 5
        allOk).2 :=
  ⟨by decide,
    (C7_mark_before_deliver idSha ⟨STATE_VERSION, true, none, []⟩ [dupItem] 5
      allFail allOk (by decide)).1⟩

/-! ## C6: incremental delivery and in-run dedup -/

theorem migrateStep_of_seen (sha : String → String) (sent : Ledger) (a : Item)
    (ha : ∃ id ∈ candidateIds sha a, truthyV (lookupKey sent id) = true) :
    truthyV (lookupKey (migrateStep sha sent a) (hashV3 sha a)) = true ∧
    ∀ id : String, id ≠ hashV3 sha a →
      lookupKey (migrateStep sha sent a) id = lookupKey sent id := by
  by_cases t3 : truthyV (lookupKey sent (hashV3 sha a)) = true
  · have hinfo : isAlreadySeen sha sent a =
        ⟨true, some (hashV3 sha a), hashV3 sha a⟩ := by
      rw [isAlreadySeen_eq, if_pos t3]
    have hms : migrateStep sha sent a = sent := by
      simp only [migrateStep, hinfo]
      simp [migrateToPrimaryIfNeeded, t3]
    rw [hms]
    exact ⟨t3, fun id _ => rfl⟩
  · have ht3 : truthyV (lookupKey sent (hashV3 sha a)) = false :=
      Bool.eq_false_iff.mpr t3
    by_cases t2 : truthyV (lookupKey sent (hashV2 sha a)) = true
    · obtain ⟨w, hw, hwt⟩ := exists_of_truthyV _ t2
      have hinfo : isAlreadySeen sha sent a =
          ⟨true, some (hashV2 sha a), hashV3 sha a⟩ := by
        rw [isAlreadySeen_eq, if_neg t3, if_pos t2]
      have hms : migrateStep sha sent a = setKey sent (hashV3 sha a) w := by
        simp only [migrateStep, hinfo]
        simp [migrateToPrimaryIfNeeded, ht3, hw]
      rw [hms]
      constructor
      · rw [lookupKey_setKey, if_pos rfl]
        exact hwt
      · intro id hne
        rw [lookupKey_setKey, if_neg (fun hh => hne hh.symm)]
    · by_cases t1 : truthyV (lookupKey sent (hashV1 sha a)) = true
      · obtain ⟨w, hw, hwt⟩ := exists_of_truthyV _ t1
        have hinfo : isAlreadySeen sha sent a =
            ⟨true, some (hashV1 sha a), hashV3 sha a⟩ := by
          rw [isAlreadySeen_eq, if_neg t3, if_neg t2, if_pos t1]
        have hms : migrateStep sha sent a = setKey sent (hashV3 sha a) w := by
          simp only [migrateStep, hinfo]
          simp [migrateToPrimaryIfNeeded, ht3, hw]
        rw [hms]
        constructor
        · rw [lookupKey_setKey, if_pos rfl]
          exact hwt
        · intro id hne
          rw [lookupKey_setKey, if_neg (fun hh => hne hh.symm)]
      · obtain ⟨id, hmem, ht⟩ := ha
        simp only [candidateIds, List.mem_cons, List.not_mem_nil,
          or_false] at hmem
        rcases hmem with h | h | h <;> subst h <;> simp_all

/-- C6: in an incremental run over `[a, b]` where some candidate id of
`a` is truthy-present and none of `b`'s ids is present (nor collides
with `a`'s primary id), only `b` is delivered — one per-item POST — and
afterwards `b`'s full candidate set is marked with the run timestamp
while `a`'s primary fingerprint is (still or by silent migration)
truthy-present, i.e. `a` was never treated as new.  Moreover, in the
concrete end-to-end scenario, the duplicate pair `[dupItem, dupItem]` on
an empty initialised ledger produces exactly one per-item POST and
exactly one ledger entry under the primary fingerprint. -/
theorem C6_incremental_delivery (sha : String → String) (st : St)
    (a b : Item) (now : Int) (orc : Nat → Bool)
    (ha : ∃ id ∈ candidateIds sha a, truthyV (lookupKey st.sent id) = true)
    (hb : ∀ id ∈ candidateIds sha b, lookupKey st.sent id = none)
    (hab : hashV3 sha a ∉ candidateIds sha b) :
    ((incrementalRun sha st [a, b] now orc).1 =
      [Act.post (postContent b) (orc 0),
       Act.save (incrementalRun sha st [a, b] now orc).2] ∧
    (∀ id ∈ candidateIds sha b,
      lookupKey (incrementalRun sha st [a, b] now orc).2.sent id =
        some (JVal.num now)) ∧
    truthyV (lookupKey (incrementalRun sha st [a, b] now orc).2.sent
      (hashV3 sha a)) = true) ∧
    ((incrementalRun idSha ⟨STATE_VERSION, true, none, []⟩
        [dupItem, dupItem] 1000 allOk).1.countP (fun act =>
          match act with
          | Act.post _ _ => true
          | _ => false) = 1 ∧
      (incrementalRun idSha ⟨STATE_VERSION, true, none, []⟩
        [dupItem, dupItem] 1000 allOk).2.sent.countP (fun kv =>
          kv.1 == hashV3 idSha dupItem) = 1) := by
  obtain ⟨hprim, hother⟩ := migrateStep_of_seen sha st.sent a ha
  set sent1 := migrateStep sha st.sent a with hsent1
  have hbfalse : ∀ id ∈ candidateIds sha b,
      truthyV (lookupKey sent1 id) = false := by
    intro id hid
    have hne : id ≠ hashV3 sha a := fun hh => hab (hh ▸ hid)
    rw [hother id hne, hb id hid]
    rfl
  have hbinfo : isAlreadySeen sha sent1 b = ⟨false, none, hashV3 sha b⟩ :=
    isAlreadySeen_false sha sent1 b hbfalse
  have hmp : migratePass sha st.sent [a, b] = sent1 := by
    simp only [migratePass, List.foldl_cons, List.foldl_nil, ← hsent1]
    simp only [migrateStep, hbinfo]
    simp
  have hfp : freshPass sha now (migratePass sha st.sent [a, b]) [a, b] =
      (markAllHashes sha sent1 b now, [b]) := by
    rw [hmp]
    simp only [freshPass, List.foldl_cons, List.foldl_nil]
    have hstepa : freshStep sha now (sent1, []) a = (sent1, []) := by
      simp [freshStep, seen_of_truthy_primary sha sent1 a hprim]
    rw [hstepa]
    simp [freshStep, hbinfo]
  refine ⟨⟨?_, ?_, ?_⟩, by decide, by decide⟩
  · rw [incrementalRun_eq]
    simp [hfp, postToDiscord]
  · intro id hid
    rw [incrementalRun_eq]
    simp only [hfp]
    exact lookupKey_markAllHashes_mem sha sent1 b now id hid
  · rw [incrementalRun_eq]
    simp only [hfp]
    rw [lookupKey_markAllHashes_ne sha sent1 b now _ hab]
    exact hprim

/-- Witness for C6: `a` is `dupItem` already present under its v2 id,
`b` is `midItem`, unseen; only `b` is posted. -/
theorem C6_incremental_delivery_witness :
    ((∃ id ∈ candidateIds idSha dupItem,
        truthyV (lookupKey [((hashV2 idSha dupItem), JVal.num 7)] id)
          = true) ∧
      (∀ id ∈ candidateIds idSha midItem,
        lookupKey [((hashV2 idSha dupItem), JVal.num 7)] id = none) ∧
      hashV3 idSha dupItem ∉ candidateIds idSha midItem) ∧
    (incrementalRun idSha
        ⟨STATE_VERSION, true, none, [((hashV2 idSha dupItem), JVal.num 7)]⟩
        [dupItem, midItem] 5 allOk).1 =
      [Act.post (postContent midItem) (allOk 0),
       Act.save (incrementalRun idSha
        ⟨STATE_VERSION, true, none, [((hashV2 idSha dupItem), JVal.num 7)]⟩
        [dupItem, midItem] 5 allOk).2] :=
  ⟨⟨⟨hashV2 idSha dupItem, by decide, by decide⟩, by decide, by decide⟩,
    (C6_incremental_delivery idSha
      ⟨STATE_VERSION, true, none, [((hashV2 idSha dupItem), JVal.num 7)]⟩
      dupItem midItem 5 allOk
      ⟨hashV2 idSha dupItem, by decide, by decide⟩ (by decide)
      (by decide)).1.1⟩

/-! ## C10: the incremental path only touches the sent map -/

/-- C10 (amended): a run that takes the incremental path — both seeding
branch conditions false — leaves `initialized`, `version` and
`initialized_at` exactly as loaded, touching only the `sent` map; and a
loaded state with `initialized = false` whose `sent` map is still
non-empty after pruning, run with first-run mode disabled, remains
uninitialised with its other fields untouched while every current
record ends up truthy-recorded in the ledger. -/
theorem C10_incremental_frame :
    (∀ (sha : String → String) (firstRun sie : Bool) (st0 : St)
        (items : List Item) (now : Int) (nowIso : String) (orc : Nat → Bool),
      ((!(pruneOld now st0).initialized && (pruneOld now st0).sent.isEmpty) &&
          !firstRun && sie) = false →
      (firstRun && !(pruneOld now st0).initialized) = false →
      (mainRun sha firstRun sie st0 items now nowIso orc).2.initialized =
          st0.initialized ∧
        (mainRun sha firstRun sie st0 items now nowIso orc).2.version =
          st0.version ∧
        (mainRun sha firstRun sie st0 items now nowIso orc).2.initializedAt =
          st0.initializedAt) ∧
    (∀ (sha : String → String) (sie : Bool) (st0 : St) (items : List Item)
        (now : Int) (nowIso : String) (orc : Nat → Bool),
      now ≠ 0 →
      st0.initialized = false →
      (pruneOld now st0).sent ≠ [] →
      (mainRun sha false sie st0 items now nowIso orc).2.initialized = false ∧
        (mainRun sha false sie st0 items now nowIso orc).2.version =
          st0.version ∧
        (mainRun sha false sie st0 items now nowIso orc).2.initializedAt =
          st0.initializedAt ∧
        ∀ it ∈ items, ∃ id ∈ candidateIds sha it,
          truthyV (lookupKey
            (mainRun sha false sie st0 items now nowIso orc).2.sent id)
            = true) := by
  have hmain : ∀ (sha : String → String) (firstRun sie : Bool) (st0 : St)
      (items : List Item) (now : Int) (nowIso : String) (orc : Nat → Bool),
      ((!(pruneOld now st0).initialized && (pruneOld now st0).sent.isEmpty) &&
          !firstRun && sie) = false →
      (firstRun && !(pruneOld now st0).initialized) = false →
      mainRun sha firstRun sie st0 items now nowIso orc =
        incrementalRun sha (pruneOld now st0) items now orc := by
    intro sha firstRun sie st0 items now nowIso orc h1 h2
    simp only [mainRun]
    rw [if_neg (by simp [h1]), if_neg (by simp [h2])]
  constructor
  · intro sha firstRun sie st0 items now nowIso orc h1 h2
    rw [hmain sha firstRun sie st0 items now nowIso orc h1 h2,
      incrementalRun_eq]
    exact ⟨pruneOld_initialized now st0, pruneOld_version now st0,
      pruneOld_initializedAt now st0⟩
  · intro sha sie st0 items now nowIso orc hnow hinit hsent
    have h1 : ((!(pruneOld now st0).initialized &&
        (pruneOld now st0).sent.isEmpty) && !false && sie) = false := by
      rcases hne : (pruneOld now st0).sent with _ | ⟨kv, rest⟩
      · exact absurd hne hsent
      · simp [hne]
    have h2 : (false && !(pruneOld now st0).initialized) = false := by simp
    have hrun := hmain sha false sie st0 items now nowIso orc h1 h2
    rw [hrun, incrementalRun_eq]
    refine ⟨by rw [pruneOld_initialized, hinit], pruneOld_version now st0,
      pruneOld_initializedAt now st0, ?_⟩
    intro it hit
    exact freshPass_all_recorded sha now hnow items
      (migratePass sha (pruneOld now st0).sent items, []) it hit

/-- Witness for C10: a live (non-stale) uninitialised ledger entry keeps
the incremental path; the state stays uninitialised. -/
theorem C10_incremental_frame_witness :
    ((5 : Int) ≠ 0 ∧
      (⟨STATE_VERSION, false, none, [(("k"), JVal.num 5)]⟩ : St).initialized
        = false ∧
      (pruneOld 5 ⟨STATE_VERSION, false, none, [(("k"), JVal.num 5)]⟩).sent
        ≠ []) ∧
    (mainRun idSha false true ⟨STATE_VERSION, false, none,
        [(("k"), JVal.num 5)]⟩ [dupItem] 5 ("t") allOk).2.initialized
      = false :=
  ⟨⟨by decide, rfl, by decide⟩,
    (C10_incremental_frame.2 idSha true ⟨STATE_VERSION, false, none,
      [(("k"), JVal.num 5)]⟩ [dupItem] 5 ("t") allOk (by decide) rfl
      (by decide)).1⟩

/-- C10 counterexample: a loaded state that is uninitialised with a
non-empty `sent` map, run with first-run mode disabled, does NOT always
stay uninitialised: if every entry is stale, pruning empties the map and
the silent-seed branch fires, setting `initialized = true`. -/
theorem C10_stale_state_reinitialised :
    staleSt.initialized = false ∧ staleSt.sent ≠ [] ∧
    (mainRun idSha false true staleSt [] 1296000000 ("x") allOk).2.initialized
      = true :=
  ⟨rfl, by decide, by decide⟩

/-! ## C2: summary chunking -/

theorem chunkStep_eq (cs : List (List Char)) (buf ln : List Char) :
    chunkStep (cs, buf) ln =
      if 1900 < (buf ++ ln ++ sepC).length then
        (cs ++ [trimEndL buf], ln ++ sepC)
      else (cs, buf ++ ln ++ sepC) := rfl

theorem flatWithSep_nil : flatWithSep [] = [] := rfl

theorem flatWithSep_cons (l : List Char) (ls : List (List Char)) :
    flatWithSep (l :: ls) = l ++ sepC ++ flatWithSep ls := by
  simp [flatWithSep, List.append_assoc]

theorem flatWithSep_append (ls1 ls2 : List (List Char)) :
    flatWithSep (ls1 ++ ls2) = flatWithSep ls1 ++ flatWithSep ls2 := by
  simp [flatWithSep]

theorem endsNonWsB_iff (l : List Char) :
    endsNonWsB l = true ↔ ∃ ys c, l = ys ++ [c] ∧ isJsSpace c = false := by
  constructor
  · intro h
    unfold endsNonWsB at h
    cases hg : l.getLast? with
    | none => rw [hg] at h; cases h
    | some c =>
      rw [hg] at h
      obtain ⟨ys, hys⟩ := List.getLast?_eq_some_iff.mp hg
      exact ⟨ys, c, hys, by simpa using h⟩
  · rintro ⟨ys, c, rfl, hc⟩
    unfold endsNonWsB
    rw [List.getLast?_eq_some_iff.mpr ⟨ys, rfl⟩]
    simpa using hc

theorem trimEndL_append_last (ys : List Char) (c : Char)
    (hc : isJsSpace c = false) :
    trimEndL (ys ++ [c]) = ys ++ [c] := by
  simp [trimEndL, List.dropWhile_cons, hc]

theorem trimEndL_append_sepC (z : List Char) :
    trimEndL (z ++ sepC) = trimEndL z := by
  have h : isJsSpace '\n' = true := by decide
  simp [trimEndL, sepC, List.dropWhile_cons, h]

theorem trimEndL_push (z : List Char) (hz : endsNonWsB z = true) :
    trimEndL (z ++ sepC) = z := by
  obtain ⟨ys, c, rfl, hc⟩ := (endsNonWsB_iff z).mp hz
  rw [trimEndL_append_sepC, trimEndL_append_last ys c hc]

theorem jsTrimL_ne_nil (l : List Char) (c : Char) (hc : c ∈ l)
    (hcw : isJsSpace c = false) : jsTrimL l ≠ [] := by
  intro hnil
  unfold jsTrimL trimEndL at hnil
  have h1 : (l.dropWhile isJsSpace).reverse.dropWhile isJsSpace = [] := by
    have h2 := congrArg List.reverse hnil
    simpa using h2
  have h3 : ∀ x ∈ l.dropWhile isJsSpace, isJsSpace x = true := by
    intro x hx
    exact List.dropWhile_eq_nil_iff.mp h1 x (List.mem_reverse.mpr hx)
  have h4 : ∀ x ∈ l, isJsSpace x = true := by
    intro x hx
    have hx2 : x ∈ l.takeWhile isJsSpace ++ l.dropWhile isJsSpace := by
      rw [List.takeWhile_append_dropWhile]
      exact hx
    rcases List.mem_append.mp hx2 with h | h
    · exact List.mem_takeWhile_imp h
    · exact h3 x h
  rw [h4 c hc] at hcw
  cases hcw

theorem chunkFold_invariant (lines : List (List Char)) :
    ∀ (cs : List (List Char)) (buf : List Char),
      (∀ ln ∈ lines, endsNonWsB ln = true ∧ ln.length + 2 ≤ 1900) →
      (∃ z, endsNonWsB z = true ∧ buf = z ++ sepC) →
      buf.length ≤ 1900 →
      (∀ c ∈ cs, c.length + 2 ≤ 1900) →
      (∃ z', endsNonWsB z' = true ∧
          (lines.foldl chunkStep (cs, buf)).2 = z' ++ sepC) ∧
      (lines.foldl chunkStep (cs, buf)).2.length ≤ 1900 ∧
      (∀ c ∈ (lines.foldl chunkStep (cs, buf)).1, c.length + 2 ≤ 1900) ∧
      flatWithSep (lines.foldl chunkStep (cs, buf)).1 ++
          (lines.foldl chunkStep (cs, buf)).2 =
        flatWithSep cs ++ buf ++ flatWithSep lines := by
  induction lines with
  | nil =>
    intro cs buf hlines hshape hlen hcs
    simp only [List.foldl_nil]
    exact ⟨hshape, hlen, hcs, by simp [flatWithSep_nil]⟩
  | cons ln rest ih =>
    intro cs buf hlines hshape hlen hcs
    obtain ⟨z, hz, rfl⟩ := hshape
    have hln := hlines ln (by simp)
    have hrest : ∀ l ∈ rest, endsNonWsB l = true ∧ l.length + 2 ≤ 1900 :=
      fun l hl => hlines l (by simp [hl])
    obtain ⟨ys, c, hlnc, hcw⟩ := (endsNonWsB_iff ln).mp hln.1
    rw [List.foldl_cons, chunkStep_eq]
    by_cases hflush : 1900 < ((z ++ sepC) ++ ln ++ sepC).length
    · rw [if_pos hflush, trimEndL_push z hz]
      have hnew := ih (cs ++ [z]) (ln ++ sepC) hrest ⟨ln, hln.1, rfl⟩
        (by
          have : (ln ++ sepC).length = ln.length + 2 := by simp [sepC]
          omega)
        (by
          intro c2 hc2
          rcases List.mem_append.mp hc2 with h | h
          · exact hcs c2 h
          · simp only [List.mem_singleton] at h
            subst h
            have : ((c2 ++ sepC)).length = c2.length + 2 := by simp [sepC]
            omega)
      obtain ⟨hshape', hlen', hcs', hglue'⟩ := hnew
      refine ⟨hshape', hlen', hcs', ?_⟩
      rw [hglue', flatWithSep_append, flatWithSep_cons, flatWithSep_cons,
        flatWithSep_nil]
      simp [List.append_assoc]
    · rw [if_neg hflush]
      have hnewshape : ∃ z2, endsNonWsB z2 = true ∧
          (z ++ sepC) ++ ln ++ sepC = z2 ++ sepC := by
        refine ⟨(z ++ sepC) ++ ln, ?_, by simp [List.append_assoc]⟩
        rw [endsNonWsB_iff]
        exact ⟨(z ++ sepC) ++ ys, c, by simp [hlnc, List.append_assoc], hcw⟩
      have hnew := ih cs ((z ++ sepC) ++ ln ++ sepC) hrest hnewshape
        (by omega) hcs
      obtain ⟨hshape', hlen', hcs', hglue'⟩ := hnew
      refine ⟨hshape', hlen', hcs', ?_⟩
      rw [hglue', flatWithSep_cons]
      simp [List.append_assoc]

theorem summaryChunksC_spec (hdr : List Char) (lines : List (List Char))
    (hhdr : endsNonWsB hdr = true) (hhlen : hdr.length + 2 ≤ 1900)
    (hlines : ∀ ln ∈ lines, endsNonWsB ln = true ∧ ln.length + 2 ≤ 1900) :
    (∀ c ∈ summaryChunksC hdr lines, c.length + 2 ≤ 1900) ∧
    flatWithSep (summaryChunksC hdr lines) =
      hdr ++ sepC ++ flatWithSep lines ∧
    (1900 < (hdr ++ sepC ++ flatWithSep lines).length →
      2 ≤ (summaryChunksC hdr lines).length) := by
  obtain ⟨⟨z', hz', hbuf'⟩, hlen', hbounds', hglue⟩ :=
    chunkFold_invariant lines [] (hdr ++ sepC) hlines ⟨hdr, hhdr, rfl⟩
      (by simpa [sepC] using hhlen) (by intro c hc; cases hc)
  have hglue2 : flatWithSep (lines.foldl chunkStep ([], hdr ++ sepC)).1 ++
      (lines.foldl chunkStep ([], hdr ++ sepC)).2 =
      hdr ++ sepC ++ flatWithSep lines := by
    rw [hglue, flatWithSep_nil]
    simp
  have hne : jsTrimL (lines.foldl chunkStep ([], hdr ++ sepC)).2 ≠ [] := by
    obtain ⟨ys, c, hzc, hcw⟩ := (endsNonWsB_iff z').mp hz'
    refine jsTrimL_ne_nil _ c ?_ hcw
    rw [hbuf', hzc]
    simp
  have hchunks : summaryChunksC hdr lines =
      (lines.foldl chunkStep ([], hdr ++ sepC)).1 ++
        [trimEndL (lines.foldl chunkStep ([], hdr ++ sepC)).2] := by
    unfold summaryChunksC
    rw [if_neg hne]
  have htrim : trimEndL (lines.foldl chunkStep ([], hdr ++ sepC)).2 = z' := by
    rw [hbuf']
    exact trimEndL_push z' hz'
  have hblen : (lines.foldl chunkStep ([], hdr ++ sepC)).2.length =
      z'.length + 2 := by
    rw [hbuf']
    simp [sepC]
  refine ⟨?_, ?_, ?_⟩
  · intro c hc
    rw [hchunks] at hc
    rcases List.mem_append.mp hc with h | h
    · exact hbounds' c h
    · simp only [List.mem_singleton] at h
      subst h
      rw [htrim]
      omega
  · rw [hchunks, flatWithSep_append, htrim, flatWithSep_cons,
      flatWithSep_nil, List.append_nil, ← hbuf', hglue2]
  · intro hbig
    by_cases hnil : (lines.foldl chunkStep ([], hdr ++ sepC)).1 = []
    · exfalso
      rw [hnil, flatWithSep_nil, List.nil_append] at hglue2
      rw [hglue2] at hlen'
      omega
    · rw [hchunks]
      have h1 : 0 < (lines.foldl chunkStep ([], hdr ++ sepC)).1.length :=
        List.length_pos.mpr hnil
      simp only [List.length_append, List.length_singleton]
      omega

theorem toString_length_le (n : Nat) (h : n ≤ 20) : (toString n).length ≤ 2 := by
  interval_cases n <;> decide

theorem summaryHeader_data (items : List Item) :
    (summaryHeader items).data =
      ("✅ Initial seed: **").data ++ (toString items.length).data ++
        ("** current request(s) found").data := by
  simp [summaryHeader, String.data_append]

theorem summaryHeader_endsNonWs (items : List Item) :
    endsNonWsB (summaryHeader items).data = true := by
  rw [endsNonWsB_iff, summaryHeader_data]
  refine ⟨("✅ Initial seed: **").data ++ (toString items.length).data ++
      ("** current request(s) foun").data, 'd', ?_, by decide⟩
  simp [List.append_assoc]

theorem summaryHeader_length_le (items : List Item)
    (h : items.length ≤ 20) :
    (summaryHeader items).length + 2 ≤ 1900 := by
  have hA : ("✅ Initial seed: **" : String).length = 18 := by decide
  have hB : ("** current request(s) found" : String).length = 27 := by decide
  have hC := toString_length_le items.length h
  simp only [summaryHeader, String.length_append, hA, hB]
  omega

/-- C2 (amended): for a non-empty record list (of at most the
`MAX_ITEMS = 20` records a run can produce) whose combined formatted
summary text exceeds the 1900-character budget, and whose individual
formatted lines each fit the budget (line plus separator at most 1900
characters) and end in a non-whitespace character, the summary is split
into at least two chunks, every chunk is strictly under the
1900-character cap, and the chunks concatenated with their separators
reproduce the header and every record's line exactly once in original
order. -/
theorem C2_summary_chunking (items : List Item) (hne : items ≠ [])
    (hcount : items.length ≤ 20)
    (hlen : ∀ it ∈ items, (summaryLine it).length + 2 ≤ 1900)
    (hws : ∀ it ∈ items, endsNonWsB (summaryLine it).data = true)
    (hbig : 1900 < (totalSummaryText items).length) :
    2 ≤ (summaryChunks items).length ∧
    (∀ c ∈ summaryChunks items, c.length < 1900) ∧
    flatWithSep (summaryChunksC (summaryHeader items).data
        (summaryLinesC items)) =
      (summaryHeader items).data ++ sepC ++
        flatWithSep (summaryLinesC items) := by
  have hlines : ∀ ln ∈ summaryLinesC items,
      endsNonWsB ln = true ∧ ln.length + 2 ≤ 1900 := by
    intro ln hln
    obtain ⟨it, hit, rfl⟩ := List.mem_map.mp hln
    exact ⟨hws it hit, hlen it hit⟩
  obtain ⟨hb, hflat, hcount2⟩ := summaryChunksC_spec
    (summaryHeader items).data (summaryLinesC items)
    (summaryHeader_endsNonWs items) (summaryHeader_length_le items hcount)
    hlines
  refine ⟨?_, ?_, hflat⟩
  · have h2 := hcount2 hbig
    simpa [summaryChunks] using h2
  · intro c hc
    simp only [summaryChunks, List.mem_map] at hc
    obtain ⟨c', hc', rfl⟩ := hc
    have h3 := hb c' hc'
    have h4 : (String.mk c').length = c'.length := rfl
    omega

theorem sepC_len : sepC.length = 2 := rfl

theorem trimEndL_append_ws (x : List Char) (d : Char)
    (hd : isJsSpace d = true) : trimEndL (x ++ [d]) = trimEndL x := by
  simp [trimEndL, List.dropWhile_cons, hd]

theorem bullet_len : (("• **Request** \n") : String).data.length = 15 := by
  decide

theorem midItem_line : (summaryLine midItem).data =
    ("• **Request** \n").data ++ List.replicate 1000 'a' := rfl

theorem oversized_line : (summaryLine oversizedItem).data =
    ("• **Request** \n").data ++ (List.replicate 1899 'a' ++ [' ']) := rfl

theorem midItem_line_len : (summaryLine midItem).data.length = 1015 := by
  rw [midItem_line, List.length_append, List.length_replicate, bullet_len]

theorem oversized_line_len : (summaryLine oversizedItem).data.length = 1915 := by
  rw [oversized_line, List.length_append, List.length_append,
    List.length_replicate, bullet_len]
  rfl

theorem summaryLinesC_mid : summaryLinesC midItems =
    [(summaryLine midItem).data, (summaryLine midItem).data] := rfl

theorem summaryLinesC_oversized : summaryLinesC oversizedItems =
    [(summaryLine oversizedItem).data] := rfl

theorem header_mid_len : (summaryHeader midItems).data.length = 46 := by
  decide

theorem header_over_len : (summaryHeader oversizedItems).data.length = 46 := by
  decide

theorem total_mid_len : (totalSummaryText midItems).length = 2082 := by
  show ((summaryHeader midItems).data ++ sepC ++
      flatWithSep (summaryLinesC midItems)).length = 2082
  rw [summaryLinesC_mid, flatWithSep_cons, flatWithSep_cons, flatWithSep_nil,
    List.append_nil]
  simp only [List.length_append, header_mid_len, midItem_line_len, sepC_len]

theorem midItem_line_ends : endsNonWsB (summaryLine midItem).data = true := by
  rw [midItem_line, endsNonWsB_iff]
  refine ⟨("• **Request** \n").data ++ List.replicate 999 'a', 'a', ?_,
    by decide⟩
  have h1 : List.replicate 1000 'a' = List.replicate 999 'a' ++ ['a'] :=
    List.replicate_succ' 999 'a'
  rw [h1, List.append_assoc]

/-- Witness for C2 (amended): two records with 1000-character links: the
combined text exceeds the budget, each line fits it, and the summary
splits into at least two chunks. -/
theorem C2_summary_chunking_witness :
    (midItems ≠ [] ∧ midItems.length ≤ 20 ∧
      1900 < (totalSummaryText midItems).length) ∧
    2 ≤ (summaryChunks midItems).length :=
  ⟨⟨by decide, by decide, by rw [total_mid_len]; omega⟩,
    (C2_summary_chunking midItems (by decide) (by decide)
      (by
        intro it hit
        simp only [midItems, List.mem_cons, List.not_mem_nil, or_false] at hit
        rcases hit with rfl | rfl <;>
          · show (summaryLine midItem).data.length + 2 ≤ 1900
            rw [midItem_line_len]
            omega)
      (by
        intro it hit
        simp only [midItems, List.mem_cons, List.not_mem_nil, or_false] at hit
        rcases hit with rfl | rfl <;> exact midItem_line_ends)
      (by rw [total_mid_len]; omega)).1⟩

theorem oversized_line_trim :
    trimEndL ((summaryLine oversizedItem).data ++ sepC) =
      ("• **Request** \n").data ++ List.replicate 1899 'a' := by
  rw [oversized_line, trimEndL_append_sepC, ← List.append_assoc,
    trimEndL_append_ws _ ' ' (by decide)]
  have h1 : List.replicate 1899 'a' = List.replicate 1898 'a' ++ ['a'] :=
    List.replicate_succ' 1898 'a'
  have h : ("• **Request** \n").data ++ List.replicate 1899 'a' =
      (("• **Request** \n").data ++ List.replicate 1898 'a') ++ ['a'] := by
    rw [h1, List.append_assoc]
  rw [h, trimEndL_append_last _ 'a' (by decide), ← h]

theorem trimEnd_header_over :
    trimEndL ((summaryHeader oversizedItems).data ++ sepC) =
      (summaryHeader oversizedItems).data :=
  trimEndL_push _ (summaryHeader_endsNonWs oversizedItems)

theorem summaryChunksC_eq (hdr : List Char) (lines : List (List Char)) :
    summaryChunksC hdr lines =
      if jsTrimL (lines.foldl chunkStep ([], hdr ++ sepC)).2 = [] then
        (lines.foldl chunkStep ([], hdr ++ sepC)).1
      else
        (lines.foldl chunkStep ([], hdr ++ sepC)).1 ++
          [trimEndL (lines.foldl chunkStep ([], hdr ++ sepC)).2] := rfl

theorem summaryChunksC_oversized :
    summaryChunksC (summaryHeader oversizedItems).data
        (summaryLinesC oversizedItems) =
      [(summaryHeader oversizedItems).data,
       ("• **Request** \n").data ++ List.replicate 1899 'a'] := by
  have hcond : 1900 <
      ((((summaryHeader oversizedItems).data ++ sepC) ++
        (summaryLine oversizedItem).data) ++ sepC).length := by
    simp only [List.length_append, header_over_len, oversized_line_len,
      sepC_len]
    omega
  have hne2 : ¬ (jsTrimL ((summaryLine oversizedItem).data ++ sepC) = []) := by
    refine jsTrimL_ne_nil _ '•' ?_ (by decide)
    apply List.mem_append.mpr
    apply Or.inl
    rw [oversized_line]
    apply List.mem_append.mpr
    exact Or.inl (by decide)
  have hstep : chunkStep ([], (summaryHeader oversizedItems).data ++ sepC)
      (summaryLine oversizedItem).data =
      ([trimEndL ((summaryHeader oversizedItems).data ++ sepC)],
        (summaryLine oversizedItem).data ++ sepC) := by
    rw [chunkStep_eq, if_pos hcond, List.nil_append]
  have hfold : List.foldl chunkStep
      ([], (summaryHeader oversizedItems).data ++ sepC)
      [(summaryLine oversizedItem).data] =
      ([trimEndL ((summaryHeader oversizedItems).data ++ sepC)],
        (summaryLine oversizedItem).data ++ sepC) := by
    rw [List.foldl_cons, List.foldl_nil]
    exact hstep
  rw [summaryLinesC_oversized, summaryChunksC_eq, hfold]
  show (if jsTrimL ((summaryLine oversizedItem).data ++ sepC) = [] then
      [trimEndL ((summaryHeader oversizedItems).data ++ sepC)]
    else
      [trimEndL ((summaryHeader oversizedItems).data ++ sepC)] ++
        [trimEndL ((summaryLine oversizedItem).data ++ sepC)]) = _
  rw [if_neg hne2, trimEnd_header_over, oversized_line_trim,
    List.singleton_append]

theorem total_over_len : (totalSummaryText oversizedItems).length = 1965 := by
  show ((summaryHeader oversizedItems).data ++ sepC ++
      flatWithSep (summaryLinesC oversizedItems)).length = 1965
  rw [summaryLinesC_oversized, flatWithSep_cons, flatWithSep_nil,
    List.append_nil]
  simp only [List.length_append, header_over_len, oversized_line_len, sepC_len]

/-- C2 counterexample: a single record whose formatted summary line is
over 1900 characters (a 1900-character link ending in a space) makes
the combined text exceed the budget, yet the chunker emits a chunk of
1914 ≥ 1900 characters, and the trailing-whitespace trim alters the
line, so the concatenated chunks do not reproduce the header and lines
verbatim.  This refutes the claim as stated over all record lists. -/
theorem C2_oversized_line_chunk :
    1900 < (totalSummaryText oversizedItems).length ∧
    (summaryChunks oversizedItems).any (fun c => 1900 ≤ c.length) = true ∧
    flatWithSep (summaryChunksC (summaryHeader oversizedItems).data
        (summaryLinesC oversizedItems)) ≠
      (summaryHeader oversizedItems).data ++ sepC ++
        flatWithSep (summaryLinesC oversizedItems) := by
  have hlen2 : (("• **Request** \n").data ++
      List.replicate 1899 'a').length = 1914 := by
    rw [List.length_append, List.length_replicate, bullet_len]
  refine ⟨by rw [total_over_len]; omega, ?_, ?_⟩
  · rw [summaryChunks, summaryChunksC_oversized]
    simp only [List.map_cons, List.map_nil, List.any_cons, List.any_nil,
      Bool.or_eq_true]
    right
    left
    have h : (String.mk (("• **Request** \n").data ++
        List.replicate 1899 'a')).length = 1914 := hlen2
    rw [h]
    decide
  · rw [summaryChunksC_oversized, summaryLinesC_oversized]
    intro heq
    have hl := congrArg List.length heq
    rw [flatWithSep_cons, flatWithSep_cons, flatWithSep_nil,
      flatWithSep_cons, flatWithSep_nil] at hl
    simp only [List.length_append, List.length_nil, header_over_len,
      oversized_line_len, sepC_len, hlen2] at hl
    omega

/-! ## C9: fingerprint determinism and sensitivity -/

theorem char_toNat_inj (x y : Char) (h : x.toNat = y.toNat) : x = y :=
  Char.ext (UInt32.toNat.inj h)

theorem hexVal_hexDigit (n : Nat) (h : n < 16) : hexVal (hexDigit n) = n := by
  interval_cases n <;> decide

theorem hexDigit_inj (a b : Nat) (ha : a < 16) (hb : b < 16)
    (h : hexDigit a = hexDigit b) : a = b := by
  have h2 := congrArg hexVal h
  rw [hexVal_hexDigit a ha, hexVal_hexDigit b hb] at h2
  exact h2

theorem escChar_ne_nil (c : Char) : escChar c ≠ [] := by
  unfold escChar
  split_ifs <;> simp

theorem escChar_head_ne_quote (c : Char) :
    ∀ t, escChar c = '"' :: t → False := by
  unfold escChar
  split_ifs with h1 h2 h3 h4 h5 h6 h7 h8 <;> intro t ht <;> simp_all

set_option maxHeartbeats 2000000 in
theorem escChar_prefix (x y : Char) (A B : List Char)
    (h : escChar x ++ A = escChar y ++ B) : x = y ∧ A = B := by
  unfold escChar at h
  split_ifs at h with hx1 hx2 hx3 hx4 hx5 hx6 hx7 hx8 hy1 hy2 hy3 hy4 hy5
    hy6 hy7 hy8
  all_goals simp only [List.cons_append, List.cons.injEq, true_and,
    List.singleton_append, List.nil_append] at h
  all_goals try exact absurd h.1 (by assumption)
  all_goals try exact absurd h.1.symm (by assumption)
  all_goals try exact ⟨by simp_all, by simp_all⟩
  all_goals obtain ⟨hd1, hd2, hAB⟩ := h
  all_goals refine ⟨?_, hAB⟩
  all_goals apply char_toNat_inj
  all_goals
    have e1 := hexDigit_inj _ _ (by omega) (by omega) hd1
  all_goals
    have e2 := hexDigit_inj _ _ (by omega) (by omega) hd2
  all_goals omega

theorem escStr_nil : escStr [] = [] := rfl

theorem escStr_cons (c : Char) (l : List Char) :
    escStr (c :: l) = escChar c ++ escStr l := by
  simp [escStr]

theorem escStr_append_quote (xs : List Char) :
    ∀ (ys A B : List Char),
      escStr xs ++ '"' :: A = escStr ys ++ '"' :: B → xs = ys ∧ A = B := by
  induction xs with
  | nil =>
    intro ys A B h
    cases ys with
    | nil => simpa [escStr_nil] using h
    | cons y ys' =>
      rw [escStr_nil, List.nil_append, escStr_cons, List.append_assoc] at h
      exfalso
      cases he : escChar y with
      | nil => exact escChar_ne_nil y he
      | cons e t =>
        rw [he, List.cons_append] at h
        injection h with h1 h2
        exact escChar_head_ne_quote y t (by rw [he, h1])
  | cons x xs' ih =>
    intro ys A B h
    cases ys with
    | nil =>
      rw [escStr_nil, List.nil_append, escStr_cons, List.append_assoc] at h
      exfalso
      cases he : escChar x with
      | nil => exact escChar_ne_nil x he
      | cons e t =>
        rw [he, List.cons_append] at h
        injection h with h1 h2
        exact escChar_head_ne_quote x t (by rw [he, ← h1])
  
    | cons y ys' =>
      rw [escStr_cons, escStr_cons, List.append_assoc, List.append_assoc] at h
      obtain ⟨hxy, htail⟩ := escChar_prefix x y _ _ h
      obtain ⟨hxs, hAB⟩ := ih ys' A B htail
      exact ⟨by rw [hxy, hxs], hAB⟩

theorem string_data_inj (s t : String) (h : s.data = t.data) : s = t := by
  cases s
  cases t
  simp only at h
  rw [h]

theorem canonOf_inj (k1 k2 k3 k4 k5 : Char) (v w : Canon5)
    (h : canonOf k1 k2 k3 k4 k5 v = canonOf k1 k2 k3 k4 k5 w) : v = w := by
  obtain ⟨v1, v2, v3, v4, v5⟩ := v
  obtain ⟨w1, w2, w3, w4, w5⟩ := w
  unfold canonOf strEnc at h
  simp only [List.cons.injEq, true_and] at h
  obtain ⟨h1, h'⟩ := escStr_append_quote _ _ _ _ h
  simp only [List.cons.injEq, true_and] at h'
  obtain ⟨h2, h''⟩ := escStr_append_quote _ _ _ _ h'
  simp only [List.cons.injEq, true_and] at h''
  obtain ⟨h3, h3'⟩ := escStr_append_quote _ _ _ _ h''
  simp only [List.cons.injEq, true_and] at h3'
  obtain ⟨h4, h4'⟩ := escStr_append_quote _ _ _ _ h3'
  simp only [List.cons.injEq, true_and] at h4'
  obtain ⟨h5, -⟩ := escStr_append_quote _ _ _ _ h4'
  simp only [Prod.mk.injEq]
  exact ⟨string_data_inj _ _ h1, string_data_inj _ _ h2,
    string_data_inj _ _ h3, string_data_inj _ _ h4, string_data_inj _ _ h5⟩

/-- C9: for any collision-free digest (the spec's contract for the
external SHA-256-based digest), each generation's fingerprint is a
function of exactly its normalised used-field tuple: records with equal
used fields get the identical fingerprint (determinism — the
serialization field order is fixed by `canonOf`, independent of any
key-insertion order), and records differing in any used field get
different fingerprints. -/
theorem C9_fingerprint_determinism (sha : String → String)
    (hinj : Function.Injective sha) (r r' : Item) :
    (hashV3 sha r = hashV3 sha r' ↔ usedV3 r = usedV3 r') ∧
    (hashV2 sha r = hashV2 sha r' ↔ usedV2 r = usedV2 r') ∧
    (hashV1 sha r = hashV1 sha r' ↔ usedV1 r = usedV1 r') := by
  refine ⟨⟨?_, ?_⟩, ⟨?_, ?_⟩, ⟨?_, ?_⟩⟩
  · intro h
    have h2 := congrArg String.data (hinj h)
    exact canonOf_inj _ _ _ _ _ _ _ h2
  · intro h
    show sha (canonV3 r) = sha (canonV3 r')
    rw [canonV3, canonV3, h]
  · intro h
    have h2 := congrArg String.data (hinj h)
    exact canonOf_inj _ _ _ _ _ _ _ h2
  · intro h
    show sha (canonV2 r) = sha (canonV2 r')
    rw [canonV2, canonV2, h]
  · intro h
    have h2 := congrArg String.data (hinj h)
    exact canonOf_inj _ _ _ _ _ _ _ h2
  · intro h
    show sha (canonV1 r) = sha (canonV1 r')
    rw [canonV1, canonV1, h]

/-- Witness for C9: the identity digest is injective, and two records
differing only in the `user` field get different v3 fingerprints. -/
theorem C9_fingerprint_determinism_witness :
    Function.Injective idSha ∧
    hashV3 idSha dupItem ≠ hashV3 idSha { dupItem with user := "bob" } := by
  have hinj : Function.Injective idSha := fun a b h => h
  refine ⟨hinj, fun h => ?_⟩
  have h2 := (C9_fingerprint_determinism idSha hinj dupItem
      { dupItem with user := "bob" }).1.mp h
  have h3 : usedV3 dupItem ≠ usedV3 { dupItem with user := "bob" } := by
    decide
  exact h3 h2
